import Mathlib

/-!
Verification of the in-memory write buffer (MemTable) of rust-lsm-db,
src/mem_table.rs, as a shallow embedding in Lean 4.

Keys and values are byte sequences, modelled as lists of naturals; only
their ordering and lengths matter to the code.  The `usize` size counter
is modelled as a natural number; every place where the Rust code performs
a subtraction that could underflow is tracked by an explicit predicate,
since Lean natural subtraction truncates at zero while Rust `usize`
subtraction panics (debug) or wraps (release) on underflow.
-/

namespace LsmDb

/-- A byte string, the key/value type of the memtable. -/
abbrev Bytes := List Nat

/-- Comparison of two bytes, the `Ord` instance of `u8` in Rust. -/
def byteCmp (a b : Nat) : Ordering :=
  if a < b then .lt else if b < a then .gt else .eq

/-- Byte-lexicographic comparison of two byte strings: the `Ord` instance
of `&[u8]` in Rust (element-wise, a strict shared segment makes the shorter
string smaller). -/
def compareBytes : Bytes → Bytes → Ordering
  | [], [] => .eq
  | [], _ :: _ => .lt
  | _ :: _, [] => .gt
  | a :: as, b :: bs =>
    match byteCmp a b with
    | .eq => compareBytes as bs
    | o => o

/-- `MemTableEntry` from src/mem_table.rs: one record of the buffer. -/
structure MemTableEntry where
  key : Bytes
  value : Option Bytes
  timestamp_ms : Nat
  is_deleted : Bool
deriving DecidableEq

/-- Default entry used for (never reached) out-of-bounds reads. -/
def dEntry : MemTableEntry := ⟨[], none, 0, false⟩

/-- `MemTable` from src/mem_table.rs: the sorted record vector and its
running byte-size account. -/
structure MemTable where
  entries : List MemTableEntry
  size : Nat
deriving DecidableEq

/-- `MemTable::new`: the empty buffer. -/
def MemTable.new : MemTable := ⟨[], 0⟩

/-- The loop of the Rust standard library function
slice::binary_search_by, as called by `MemTable::get_index` via
binary_search_by_key: at each step mid = left + (right - left) / 2 and
the element at mid is compared against the key.  `Sum.inl i` models
`Ok(i)` (key found at i), `Sum.inr i` models `Err(i)` (insertion index i).
The extra fuel argument only serves termination; `right - left` shrinks at
every step, so fuel `right - left` (and a fortiori the list length, which
is what `get_index` passes) is always enough, and the fuel-exhaustion
branch is never reached. -/
def bsGo (es : List MemTableEntry) (key : Bytes) : Nat → Nat → Nat → Sum Nat Nat
  | 0, left, _ => Sum.inr left
  | fuel + 1, left, right =>
    if left < right then
      let mid := left + (right - left) / 2
      match compareBytes (es.getD mid dEntry).key key with
      | .lt => bsGo es key fuel (mid + 1) right
      | .gt => bsGo es key fuel left mid
      | .eq => Sum.inl mid
    else Sum.inr left

/-- `MemTable::get_index`: binary search over the sorted entries by key. -/
def get_index (es : List MemTableEntry) (key : Bytes) : Sum Nat Nat :=
  bsGo es key es.length 0 es.length

/-- `Vec::insert` at a given index: shifts the tail right.  (Rust panics
when the index exceeds the length; `get_index` never produces such an
index, and in that unreachable case this model appends at the end.) -/
def insertAt : Nat → MemTableEntry → List MemTableEntry → List MemTableEntry
  | 0, e, l => e :: l
  | _ + 1, e, [] => [e]
  | n + 1, e, x :: xs => x :: insertAt n e xs

/-- `MemTable::set`: upsert of a key-value pair.  On a hit the record is
replaced in place and the size is adjusted by the value-length delta, but
only when the previous record held a value; on a miss the record is
inserted at the returned position and key + value + 16 + 1 bytes are
charged. -/
def MemTable.set (t : MemTable) (key value : Bytes) (timestamp_ms : Nat) : MemTable :=
  let entry : MemTableEntry := ⟨key, some value, timestamp_ms, false⟩
  match get_index t.entries key with
  | Sum.inl idx =>
    let sz :=
      match (t.entries.getD idx dEntry).value with
      | some v =>
        if value.length < v.length then t.size - (v.length - value.length)
        else t.size + (value.length - v.length)
      | none => t.size
    ⟨t.entries.set idx entry, sz⟩
  | Sum.inr idx =>
    ⟨insertAt idx entry t.entries, t.size + (key.length + value.length + 16 + 1)⟩

/-- `MemTable::delete`: tombstone upsert.  On a hit the record is replaced
by a tombstone and the previous value length (if any) is subtracted from
the size; on a miss a tombstone is inserted and key + 16 + 1 bytes are
charged. -/
def MemTable.delete (t : MemTable) (key : Bytes) (timestamp_ms : Nat) : MemTable :=
  let entry : MemTableEntry := ⟨key, none, timestamp_ms, true⟩
  match get_index t.entries key with
  | Sum.inl idx =>
    let sz :=
      match (t.entries.getD idx dEntry).value with
      | some v => t.size - v.length
      | none => t.size
    ⟨t.entries.set idx entry, sz⟩
  | Sum.inr idx =>
    ⟨insertAt idx entry t.entries, t.size + (key.length + 16 + 1)⟩

/-- `MemTable::get`: point lookup, `none` when the key is absent. -/
def MemTable.get (t : MemTable) (key : Bytes) : Option MemTableEntry :=
  match get_index t.entries key with
  | Sum.inl idx => some (t.entries.getD idx dEntry)
  | Sum.inr _ => none

/-- `MemTable::len`: number of records held. -/
def MemTable.len (t : MemTable) : Nat := t.entries.length

/-- In `MemTable::set`, the branch `self.size -= v.len() - value.len()`
(taken on a hit whose previous record holds value `v` longer than the new
one) subtracts more than the current size, which underflows `usize` in
Rust.  True exactly when that call would underflow. -/
def MemTable.setUnderflows (t : MemTable) (key value : Bytes) : Bool :=
  match get_index t.entries key with
  | Sum.inl idx =>
    match (t.entries.getD idx dEntry).value with
    | some v => value.length < v.length && t.size < v.length - value.length
    | none => false
  | Sum.inr _ => false

/-- In `MemTable::delete`, the branch `self.size -= value.len()` (taken on
a hit whose record holds a value) subtracts more than the current size,
which underflows `usize` in Rust.  True exactly when that call would
underflow. -/
def MemTable.deleteUnderflows (t : MemTable) (key : Bytes) : Bool :=
  match get_index t.entries key with
  | Sum.inl idx =>
    match (t.entries.getD idx dEntry).value with
    | some v => t.size < v.length
    | none => false
  | Sum.inr _ => false

/-- One mutation of the buffer. -/
inductive Op where
  | setOp (key value : Bytes) (timestamp_ms : Nat)
  | delOp (key : Bytes) (timestamp_ms : Nat)
deriving DecidableEq

/-- The key an operation mutates. -/
def Op.key : Op → Bytes
  | .setOp k _ _ => k
  | .delOp k _ => k

/-- Apply one operation to a buffer. -/
def applyOp (t : MemTable) : Op → MemTable
  | .setOp k v ts => t.set k v ts
  | .delOp k ts => t.delete k ts

/-- Run a sequence of operations against a fresh empty buffer. -/
def applyOps (ops : List Op) : MemTable :=
  ops.foldl applyOp MemTable.new

/-- A buffer state is reachable when some operation sequence builds it
from the empty buffer. -/
def Reachable (t : MemTable) : Prop :=
  ∃ ops : List Op, applyOps ops = t

/-- Strict byte-lexicographic order on entries, by key. -/
def keyLt (a b : MemTableEntry) : Prop :=
  compareBytes a.key b.key = .lt

/-- The ordering invariant of the buffer: entries strictly sorted by key. -/
def SortedEntries (es : List MemTableEntry) : Prop :=
  List.Pairwise keyLt es



theorem byteCmp_lt_iff {a b : Nat} : byteCmp a b = .lt ↔ a < b := by
  unfold byteCmp; split_ifs with h1 h2 <;> simp <;> omega

theorem byteCmp_gt_iff {a b : Nat} : byteCmp a b = .gt ↔ b < a := by
  unfold byteCmp; split_ifs with h1 h2 <;> simp <;> omega

theorem byteCmp_eq_iff {a b : Nat} : byteCmp a b = .eq ↔ a = b := by
  unfold byteCmp; split_ifs with h1 h2 <;> simp <;> omega

theorem compareBytes_self : ∀ (a : Bytes), compareBytes a a = .eq
  | [] => rfl
  | a :: as => by
    have h : byteCmp a a = .eq := byteCmp_eq_iff.mpr rfl
    simp only [compareBytes, h]
    exact compareBytes_self as

theorem compareBytes_eq_iff : ∀ {a b : Bytes}, compareBytes a b = .eq ↔ a = b
  | [], [] => by simp [compareBytes]
  | [], _ :: _ => by simp [compareBytes]
  | _ :: _, [] => by simp [compareBytes]
  | a :: as, b :: bs => by
    simp only [compareBytes]
    cases h : byteCmp a b with
    | eq =>
      have hab : a = b := byteCmp_eq_iff.mp h
      simp [hab, compareBytes_eq_iff (a := as) (b := bs)]
    | lt =>
      have hab : a ≠ b := by have := byteCmp_lt_iff.mp h; omega
      simp [hab]
    | gt =>
      have hab : a ≠ b := by have := byteCmp_gt_iff.mp h; omega
      simp [hab]

theorem compareBytes_gt_iff_lt : ∀ {a b : Bytes}, compareBytes a b = .gt ↔ compareBytes b a = .lt
  | [], [] => by simp [compareBytes]
  | [], _ :: _ => by simp [compareBytes]
  | _ :: _, [] => by simp [compareBytes]
  | a :: as, b :: bs => by
    simp only [compareBytes]
    cases h : byteCmp a b with
    | eq =>
      have hab : a = b := byteCmp_eq_iff.mp h
      have h2 : byteCmp b a = .eq := byteCmp_eq_iff.mpr hab.symm
      simp [h2, compareBytes_gt_iff_lt (a := as) (b := bs)]
    | lt =>
      have h2 : byteCmp b a = .gt := byteCmp_gt_iff.mpr (byteCmp_lt_iff.mp h)
      simp [h2]
    | gt =>
      have h2 : byteCmp b a = .lt := byteCmp_lt_iff.mpr (byteCmp_gt_iff.mp h)
      simp [h2]

theorem compareBytes_lt_trans : ∀ {a b c : Bytes},
    compareBytes a b = .lt → compareBytes b c = .lt → compareBytes a c = .lt
  | [], [], _, h1, _ => by simp [compareBytes] at h1
  | [], _ :: _, [], _, h2 => by simp [compareBytes] at h2
  | [], _ :: _, _ :: _, _, _ => by simp [compareBytes]
  | _ :: _, [], _, h1, _ => by simp [compareBytes] at h1
  | _ :: _, _ :: _, [], _, h2 => by simp [compareBytes] at h2
  | a :: as, b :: bs, c :: cs, h1, h2 => by
    simp only [compareBytes] at h1 h2 ⊢
    cases hab : byteCmp a b with
    | gt => rw [hab] at h1; simp at h1
    | lt =>
      cases hbc : byteCmp b c with
      | gt => rw [hbc] at h2; simp at h2
      | lt =>
        have hac : a < c := Nat.lt_trans (byteCmp_lt_iff.mp hab) (byteCmp_lt_iff.mp hbc)
        rw [byteCmp_lt_iff.mpr hac]
      | eq =>
        have hbceq : b = c := byteCmp_eq_iff.mp hbc
        have hac : a < c := hbceq ▸ byteCmp_lt_iff.mp hab
        rw [byteCmp_lt_iff.mpr hac]
    | eq =>
      have habeq : a = b := byteCmp_eq_iff.mp hab
      rw [hab] at h1
      cases hbc : byteCmp b c with
      | gt => rw [hbc] at h2; simp at h2
      | lt =>
        have hac : a < c := habeq ▸ byteCmp_lt_iff.mp hbc
        rw [byteCmp_lt_iff.mpr hac]
      | eq =>
        rw [hbc] at h2
        have hacq : byteCmp a c = .eq := byteCmp_eq_iff.mpr (habeq.trans (byteCmp_eq_iff.mp hbc))
        rw [hacq]
        exact compareBytes_lt_trans (a := as) (b := bs) (c := cs) h1 h2



theorem bsGo_inl {es : List MemTableEntry} {key : Bytes} :
    ∀ (fuel left right : Nat), right ≤ es.length →
      ∀ {i : Nat}, bsGo es key fuel left right = Sum.inl i →
        i < es.length ∧ compareBytes (es.getD i dEntry).key key = .eq := by
  intro fuel
  induction fuel with
  | zero => intro left right _ i h; simp [bsGo] at h
  | succ n ih =>
    intro left right hr i h
    simp only [bsGo] at h
    split at h
    · rename_i hlr
      split at h
      · exact ih _ _ hr h
      · rename_i hcmp
        have hmid : left + (right - left) / 2 < right := by omega
        exact ih _ _ (le_trans (le_of_lt hmid) hr) h
      · rename_i hcmp
        have hmid : left + (right - left) / 2 < right := by omega
        cases h
        exact ⟨lt_of_lt_of_le hmid hr, hcmp⟩
    · simp at h

theorem bsGo_inr_bounds {es : List MemTableEntry} {key : Bytes} :
    ∀ (fuel left right : Nat), left ≤ right →
      ∀ {i : Nat}, bsGo es key fuel left right = Sum.inr i → left ≤ i ∧ i ≤ right := by
  intro fuel
  induction fuel with
  | zero =>
    intro left right hlr i h
    simp only [bsGo] at h
    cases h
    exact ⟨le_refl _, hlr⟩
  | succ n ih =>
    intro left right hlr i h
    simp only [bsGo] at h
    split at h
    · rename_i hlt
      have hmid : left ≤ left + (right - left) / 2 ∧ left + (right - left) / 2 < right := by
        constructor <;> omega
      split at h
      · have := ih _ _ (by omega) h
        exact ⟨by omega, this.2⟩
      · have := ih _ _ (by omega) h
        exact ⟨this.1, by omega⟩
      · simp at h
    · cases h
      exact ⟨le_refl _, hlr⟩

end LsmDb

namespace LsmDb

theorem sorted_getD_lt {es : List MemTableEntry} (hs : SortedEntries es) {i j : Nat}
    (hij : i < j) (hj : j < es.length) :
    compareBytes (es.getD i dEntry).key (es.getD j dEntry).key = .lt := by
  have hi : i < es.length := lt_trans hij hj
  rw [List.getD_eq_getElem es dEntry hi, List.getD_eq_getElem es dEntry hj]
  have := (List.pairwise_iff_getElem.mp hs) i j hi hj hij
  exact this

theorem bsGo_inr_sep {es : List MemTableEntry} {key : Bytes} (hs : SortedEntries es) :
    ∀ (fuel left right : Nat), left ≤ right → right ≤ es.length → right - left ≤ fuel →
      (∀ j, j < left → compareBytes (es.getD j dEntry).key key = .lt) →
      (∀ j, right ≤ j → j < es.length → compareBytes key (es.getD j dEntry).key = .lt) →
      ∀ {i : Nat}, bsGo es key fuel left right = Sum.inr i →
        (∀ j, j < i → compareBytes (es.getD j dEntry).key key = .lt) ∧
        (∀ j, i ≤ j → j < es.length → compareBytes key (es.getD j dEntry).key = .lt) := by
  intro fuel
  induction fuel with
  | zero =>
    intro left right hlr hr hf hlow hhigh i h
    simp only [bsGo] at h
    cases h
    have : left = right := by omega
    exact ⟨hlow, fun j hj hjl => hhigh j (this ▸ hj) hjl⟩
  | succ n ih =>
    intro left right hlr hr hf hlow hhigh i h
    simp only [bsGo] at h
    split at h
    · rename_i hlt
      have hmid1 : left ≤ left + (right - left) / 2 := by omega
      have hmid2 : left + (right - left) / 2 < right := by omega
      split at h
      · rename_i hcmp
        refine ih (left + (right - left) / 2 + 1) right (by omega) hr (by omega) ?_ hhigh h
        intro j hj
        rcases Nat.lt_or_ge j (left + (right - left) / 2) with hcase | hcase
        · exact compareBytes_lt_trans (sorted_getD_lt hs hcase (by omega)) hcmp
        · have : j = left + (right - left) / 2 := by omega
          rw [this]; exact hcmp
      · rename_i hcmp
        have hcmp' : compareBytes key (es.getD (left + (right - left) / 2) dEntry).key = .lt :=
          compareBytes_gt_iff_lt.mp hcmp
        refine ih left (left + (right - left) / 2) (by omega) (by omega) (by omega) hlow ?_ h
        intro j hj hjl
        rcases Nat.lt_or_ge j right with hcase | hcase
        · rcases Nat.eq_or_lt_of_le hj with heq | hlt2
          · rw [← heq]; exact hcmp'
          · exact compareBytes_lt_trans hcmp' (sorted_getD_lt hs hlt2 (by omega))
        · exact hhigh j hcase hjl
      · simp at h
    · rename_i hnlt
      cases h
      have : left = right := by omega
      exact ⟨hlow, fun j hj hjl => hhigh j (this ▸ hj) hjl⟩

theorem get_index_inl {es : List MemTableEntry} {key : Bytes} {i : Nat}
    (h : get_index es key = Sum.inl i) :
    i < es.length ∧ (es.getD i dEntry).key = key := by
  have := bsGo_inl es.length 0 es.length (le_refl _) h
  exact ⟨this.1, compareBytes_eq_iff.mp this.2⟩

theorem get_index_inr_bounds {es : List MemTableEntry} {key : Bytes} {i : Nat}
    (h : get_index es key = Sum.inr i) : i ≤ es.length :=
  (bsGo_inr_bounds es.length 0 es.length (Nat.zero_le _) h).2

theorem get_index_inr_sep {es : List MemTableEntry} {key : Bytes} (hs : SortedEntries es)
    {i : Nat} (h : get_index es key = Sum.inr i) :
    (∀ j, j < i → compareBytes (es.getD j dEntry).key key = .lt) ∧
    (∀ j, i ≤ j → j < es.length → compareBytes key (es.getD j dEntry).key = .lt) :=
  bsGo_inr_sep hs es.length 0 es.length (Nat.zero_le _) (le_refl _) (by omega)
    (fun j hj => absurd hj (Nat.not_lt_zero j))
    (fun j hj hjl => absurd hjl (by omega)) h

theorem get_index_inr_not_mem {es : List MemTableEntry} {key : Bytes} (hs : SortedEntries es)
    {i : Nat} (h : get_index es key = Sum.inr i) :
    ∀ e ∈ es, e.key ≠ key := by
  intro e he hk
  obtain ⟨⟨j, hj⟩, hget⟩ := List.mem_iff_get.mp he
  have hgd : es.getD j dEntry = e := by
    rw [List.getD_eq_getElem es dEntry hj]; exact hget
  obtain ⟨hlow, hhigh⟩ := get_index_inr_sep hs h
  rcases Nat.lt_or_ge j i with hcase | hcase
  · have := hlow j hcase
    rw [hgd, hk] at this
    rw [compareBytes_self] at this
    simp at this
  · have := hhigh j hcase hj
    rw [hgd, hk] at this
    rw [compareBytes_self] at this
    simp at this

theorem sorted_key_inj {es : List MemTableEntry} (hs : SortedEntries es) {i j : Nat}
    (hi : i < es.length) (hj : j < es.length)
    (h : (es.getD i dEntry).key = (es.getD j dEntry).key) : i = j := by
  rcases lt_trichotomy i j with hc | hc | hc
  · have := sorted_getD_lt hs hc hj
    rw [h, compareBytes_self] at this
    simp at this
  · exact hc
  · have := sorted_getD_lt hs hc hi
    rw [h, compareBytes_self] at this
    simp at this

theorem get_index_found {es : List MemTableEntry} {key : Bytes} (hs : SortedEntries es)
    {e : MemTableEntry} (he : e ∈ es) (hk : e.key = key) :
    ∃ i, get_index es key = Sum.inl i ∧ i < es.length ∧ es.getD i dEntry = e := by
  cases hidx : get_index es key with
  | inr i => exact absurd hk (get_index_inr_not_mem hs hidx e he)
  | inl i =>
    obtain ⟨hi, hkey⟩ := get_index_inl hidx
    obtain ⟨⟨j, hj⟩, hget⟩ := List.mem_iff_get.mp he
    have hgd : es.getD j dEntry = e := by
      rw [List.getD_eq_getElem es dEntry hj]; exact hget
    have hij : i = j := sorted_key_inj hs hi hj (by rw [hkey, hgd, hk])
    exact ⟨i, rfl, hi, by rw [hij, hgd]⟩



theorem length_insertAt : ∀ (n : Nat) (e : MemTableEntry) (l : List MemTableEntry),
    (insertAt n e l).length = l.length + 1
  | 0, _, _ => rfl
  | _ + 1, _, [] => rfl
  | n + 1, e, x :: xs => by
    simp only [insertAt, List.length_cons, length_insertAt n e xs]

theorem mem_insertAt : ∀ {n : Nat} {e : MemTableEntry} {l : List MemTableEntry} {y : MemTableEntry},
    y ∈ insertAt n e l → y = e ∨ y ∈ l
  | 0, e, l, y, h => by
    rcases List.mem_cons.mp h with h | h
    · exact Or.inl h
    · exact Or.inr h
  | _ + 1, e, [], y, h => by
    simp [insertAt] at h
    exact Or.inl h
  | n + 1, e, x :: xs, y, h => by
    rcases List.mem_cons.mp h with h | h
    · exact Or.inr (h ▸ List.mem_cons_self x xs)
    · rcases mem_insertAt h with h | h
      · exact Or.inl h
      · exact Or.inr (List.mem_cons_of_mem x h)

theorem self_mem_insertAt : ∀ (n : Nat) (e : MemTableEntry) (l : List MemTableEntry),
    e ∈ insertAt n e l
  | 0, e, l => List.mem_cons_self e l
  | _ + 1, e, [] => List.mem_cons_self e []
  | n + 1, e, x :: xs => List.mem_cons_of_mem x (self_mem_insertAt n e xs)

theorem sorted_insertAt : ∀ {n : Nat} {l : List MemTableEntry} {e : MemTableEntry},
    SortedEntries l →
    (∀ j, j < n → compareBytes (l.getD j dEntry).key e.key = .lt) →
    (∀ j, n ≤ j → j < l.length → compareBytes e.key (l.getD j dEntry).key = .lt) →
    SortedEntries (insertAt n e l)
  | 0, l, e, hs, _, hhigh => by
    refine List.pairwise_cons.mpr ⟨?_, hs⟩
    intro y hy
    obtain ⟨⟨j, hj⟩, hget⟩ := List.mem_iff_get.mp hy
    have hgd : l.getD j dEntry = y := by
      rw [List.getD_eq_getElem l dEntry hj]; exact hget
    unfold keyLt
    rw [← hgd]
    exact hhigh j (Nat.zero_le _) hj
  | n + 1, [], e, _, _, _ => List.pairwise_singleton _ _
  | n + 1, x :: xs, e, hs, hlow, hhigh => by
    obtain ⟨hx, hxs⟩ := List.pairwise_cons.mp hs
    refine List.pairwise_cons.mpr ⟨?_, ?_⟩
    · intro y hy
      rcases mem_insertAt hy with h | h
      · subst h
        unfold keyLt
        have := hlow 0 (Nat.succ_pos n)
        simpa using this
      · exact hx y h
    · refine sorted_insertAt hxs ?_ ?_
      · intro j hj
        have := hlow (j + 1) (by omega)
        simpa using this
      · intro j hj hjl
        have := hhigh (j + 1) (by omega) (by simpa using Nat.succ_lt_succ hjl)
        simpa using this

theorem getD_set_self {l : List MemTableEntry} {i : Nat} {e : MemTableEntry}
    (hi : i < l.length) : (l.set i e).getD i dEntry = e := by
  rw [List.getD_eq_getElem _ dEntry (by rw [List.length_set]; exact hi)]
  exact List.getElem_set_self _

theorem sorted_set : ∀ {l : List MemTableEntry} {i : Nat} {e : MemTableEntry},
    SortedEntries l → i < l.length → (l.getD i dEntry).key = e.key →
    SortedEntries (l.set i e)
  | [], _, _, _, hi, _ => by simp at hi
  | x :: xs, 0, e, hs, _, hk => by
    obtain ⟨hx, hxs⟩ := List.pairwise_cons.mp hs
    rw [List.set_cons_zero]
    refine List.pairwise_cons.mpr ⟨?_, hxs⟩
    intro y hy
    unfold keyLt
    have hxk : x.key = e.key := by simpa using hk
    rw [← hxk]
    exact hx y hy
  | x :: xs, i + 1, e, hs, hi, hk => by
    obtain ⟨hx, hxs⟩ := List.pairwise_cons.mp hs
    rw [List.set_cons_succ]
    refine List.pairwise_cons.mpr ⟨?_, ?_⟩
    · intro y hy
      rcases List.mem_or_eq_of_mem_set hy with h | h
      · exact hx y h
      · subst h
        have hxsi : xs.getD i dEntry ∈ xs := by
          rw [List.getD_eq_getElem xs dEntry (by simpa using hi)]
          exact List.getElem_mem _
        have hlt := hx _ hxsi
        unfold keyLt at hlt ⊢
        have hk2 : (xs.getD i dEntry).key = y.key := by simpa using hk
        rw [← hk2]
        exact hlt
    · exact sorted_set hxs (by simpa using hi) (by simpa using hk)



theorem set_entries_inl {t : MemTable} {k v : Bytes} {ts idx : Nat}
    (h : get_index t.entries k = Sum.inl idx) :
    (t.set k v ts).entries = t.entries.set idx ⟨k, some v, ts, false⟩ := by
  unfold MemTable.set
  rw [h]

theorem set_entries_inr {t : MemTable} {k v : Bytes} {ts idx : Nat}
    (h : get_index t.entries k = Sum.inr idx) :
    (t.set k v ts).entries = insertAt idx ⟨k, some v, ts, false⟩ t.entries := by
  unfold MemTable.set
  rw [h]

theorem delete_entries_inl {t : MemTable} {k : Bytes} {ts idx : Nat}
    (h : get_index t.entries k = Sum.inl idx) :
    (t.delete k ts).entries = t.entries.set idx ⟨k, none, ts, true⟩ := by
  unfold MemTable.delete
  rw [h]

theorem delete_entries_inr {t : MemTable} {k : Bytes} {ts idx : Nat}
    (h : get_index t.entries k = Sum.inr idx) :
    (t.delete k ts).entries = insertAt idx ⟨k, none, ts, true⟩ t.entries := by
  unfold MemTable.delete
  rw [h]

theorem sorted_set_op {t : MemTable} {k v : Bytes} {ts : Nat}
    (hs : SortedEntries t.entries) : SortedEntries (t.set k v ts).entries := by
  cases hidx : get_index t.entries k with
  | inl idx =>
    rw [set_entries_inl hidx]
    obtain ⟨hlt, hkey⟩ := get_index_inl hidx
    exact sorted_set hs hlt hkey
  | inr idx =>
    rw [set_entries_inr hidx]
    obtain ⟨hlow, hhigh⟩ := get_index_inr_sep hs hidx
    exact sorted_insertAt hs hlow hhigh

theorem sorted_delete_op {t : MemTable} {k : Bytes} {ts : Nat}
    (hs : SortedEntries t.entries) : SortedEntries (t.delete k ts).entries := by
  cases hidx : get_index t.entries k with
  | inl idx =>
    rw [delete_entries_inl hidx]
    obtain ⟨hlt, hkey⟩ := get_index_inl hidx
    exact sorted_set hs hlt hkey
  | inr idx =>
    rw [delete_entries_inr hidx]
    obtain ⟨hlow, hhigh⟩ := get_index_inr_sep hs hidx
    exact sorted_insertAt hs hlow hhigh

theorem sorted_applyOps_from : ∀ (ops : List Op) (t : MemTable),
    SortedEntries t.entries → SortedEntries (ops.foldl applyOp t).entries
  | [], t, hs => hs
  | op :: ops, t, hs => by
    refine sorted_applyOps_from ops (applyOp t op) ?_
    cases op with
    | setOp k v ts => exact sorted_set_op hs
    | delOp k ts => exact sorted_delete_op hs

theorem reachable_sorted {t : MemTable} (h : Reachable t) : SortedEntries t.entries := by
  obtain ⟨ops, hops⟩ := h
  rw [← hops]
  exact sorted_applyOps_from ops MemTable.new (List.Pairwise.nil)



theorem get_eq_some {t : MemTable} {k : Bytes} {e : MemTableEntry}
    (h : t.get k = some e) : e.key = k ∧ e ∈ t.entries := by
  unfold MemTable.get at h
  cases hidx : get_index t.entries k with
  | inr i => rw [hidx] at h; simp at h
  | inl i =>
    rw [hidx] at h
    obtain ⟨hi, hkey⟩ := get_index_inl hidx
    have he : t.entries.getD i dEntry = e := by
      simpa using h
    refine ⟨by rw [← he]; exact hkey, ?_⟩
    rw [← he, List.getD_eq_getElem t.entries dEntry hi]
    exact List.getElem_mem hi

theorem get_of_mem {t : MemTable} {k : Bytes} (hs : SortedEntries t.entries)
    {e : MemTableEntry} (he : e ∈ t.entries) (hk : e.key = k) :
    t.get k = some e := by
  obtain ⟨i, hidx, _, hgd⟩ := get_index_found hs he hk
  unfold MemTable.get
  rw [hidx]
  show some (t.entries.getD i dEntry) = some e
  rw [hgd]

theorem set_entry_mem (t : MemTable) (k v : Bytes) (ts : Nat) :
    (⟨k, some v, ts, false⟩ : MemTableEntry) ∈ (t.set k v ts).entries := by
  cases hidx : get_index t.entries k with
  | inl idx =>
    rw [set_entries_inl hidx]
    obtain ⟨hi, _⟩ := get_index_inl hidx
    have hlen : idx < (t.entries.set idx (⟨k, some v, ts, false⟩ : MemTableEntry)).length := by
      rw [List.length_set]; exact hi
    have hmem := List.getElem_mem hlen
    rw [List.getElem_set_self] at hmem
    exact hmem
  | inr idx =>
    rw [set_entries_inr hidx]
    exact self_mem_insertAt idx _ t.entries

theorem delete_entry_mem (t : MemTable) (k : Bytes) (ts : Nat) :
    (⟨k, none, ts, true⟩ : MemTableEntry) ∈ (t.delete k ts).entries := by
  cases hidx : get_index t.entries k with
  | inl idx =>
    rw [delete_entries_inl hidx]
    obtain ⟨hi, _⟩ := get_index_inl hidx
    have hlen : idx < (t.entries.set idx (⟨k, none, ts, true⟩ : MemTableEntry)).length := by
      rw [List.length_set]; exact hi
    have hmem := List.getElem_mem hlen
    rw [List.getElem_set_self] at hmem
    exact hmem
  | inr idx =>
    rw [delete_entries_inr hidx]
    exact self_mem_insertAt idx _ t.entries

theorem get_set_self {t : MemTable} {k v : Bytes} {ts : Nat}
    (hs : SortedEntries t.entries) :
    (t.set k v ts).get k = some ⟨k, some v, ts, false⟩ :=
  get_of_mem (sorted_set_op hs) (set_entry_mem t k v ts) rfl

theorem get_delete_self {t : MemTable} {k : Bytes} {ts : Nat}
    (hs : SortedEntries t.entries) :
    (t.delete k ts).get k = some ⟨k, none, ts, true⟩ :=
  get_of_mem (sorted_delete_op hs) (delete_entry_mem t k ts) rfl

theorem len_set (t : MemTable) (k v : Bytes) (ts : Nat) :
    (t.set k v ts).len = if (t.get k).isSome then t.len else t.len + 1 := by
  unfold MemTable.len MemTable.get
  cases hidx : get_index t.entries k with
  | inl idx =>
    rw [set_entries_inl hidx, List.length_set]
    simp
  | inr idx =>
    rw [set_entries_inr hidx, length_insertAt]
    simp

theorem len_delete (t : MemTable) (k : Bytes) (ts : Nat) :
    (t.delete k ts).len = if (t.get k).isSome then t.len else t.len + 1 := by
  unfold MemTable.len MemTable.get
  cases hidx : get_index t.entries k with
  | inl idx =>
    rw [delete_entries_inl hidx, List.length_set]
    simp
  | inr idx =>
    rw [delete_entries_inr hidx, length_insertAt]
    simp

theorem delete_size_tombstone {t : MemTable} {k : Bytes} {ts : Nat} {e : MemTableEntry}
    (he : t.get k = some e) (hv : e.value = none) :
    (t.delete k ts).size = t.size := by
  unfold MemTable.get at he
  cases hidx : get_index t.entries k with
  | inr i => rw [hidx] at he; simp at he
  | inl idx =>
    rw [hidx] at he
    have hgd : t.entries.getD idx dEntry = e := by simpa using he
    unfold MemTable.delete
    rw [hidx]
    show (match (t.entries.getD idx dEntry).value with
          | some v => t.size - v.length
          | none => t.size) = t.size
    rw [hgd, hv]



theorem mem_applyOp {t : MemTable} {op : Op} {e : MemTableEntry}
    (h : e ∈ (applyOp t op).entries) : e.key = op.key ∨ e ∈ t.entries := by
  cases op with
  | setOp k v ts =>
    show e.key = k ∨ e ∈ t.entries
    cases hidx : get_index t.entries k with
    | inl idx =>
      rw [applyOp, set_entries_inl hidx] at h
      rcases List.mem_or_eq_of_mem_set h with h | h
      · exact Or.inr h
      · subst h; exact Or.inl rfl
    | inr idx =>
      rw [applyOp, set_entries_inr hidx] at h
      rcases mem_insertAt h with h | h
      · subst h; exact Or.inl rfl
      · exact Or.inr h
  | delOp k ts =>
    show e.key = k ∨ e ∈ t.entries
    cases hidx : get_index t.entries k with
    | inl idx =>
      rw [applyOp, delete_entries_inl hidx] at h
      rcases List.mem_or_eq_of_mem_set h with h | h
      · exact Or.inr h
      · subst h; exact Or.inl rfl
    | inr idx =>
      rw [applyOp, delete_entries_inr hidx] at h
      rcases mem_insertAt h with h | h
      · subst h; exact Or.inl rfl
      · exact Or.inr h

theorem mem_foldl_key : ∀ (ops : List Op) (t : MemTable) (e : MemTableEntry),
    e ∈ (ops.foldl applyOp t).entries → (∃ op ∈ ops, e.key = op.key) ∨ e ∈ t.entries
  | [], t, e, h => Or.inr h
  | op :: ops, t, e, h => by
    rcases mem_foldl_key ops (applyOp t op) e h with ⟨op2, hop2, hk⟩ | h
    · exact Or.inl ⟨op2, List.mem_cons_of_mem op hop2, hk⟩
    · rcases mem_applyOp h with hk | h
      · exact Or.inl ⟨op, List.mem_cons_self op ops, hk⟩
      · exact Or.inr h

/-- The tombstone-flag invariant: the flag is true exactly when the value
is absent. -/
def FlagOk (e : MemTableEntry) : Prop := e.is_deleted = true ↔ e.value = none

theorem flagOk_applyOp {t : MemTable} {op : Op}
    (ht : ∀ e ∈ t.entries, FlagOk e) :
    ∀ e ∈ (applyOp t op).entries, FlagOk e := by
  intro e he
  cases op with
  | setOp k v ts =>
    cases hidx : get_index t.entries k with
    | inl idx =>
      rw [applyOp, set_entries_inl hidx] at he
      rcases List.mem_or_eq_of_mem_set he with h | h
      · exact ht e h
      · subst h; simp [FlagOk]
    | inr idx =>
      rw [applyOp, set_entries_inr hidx] at he
      rcases mem_insertAt he with h | h
      · subst h; simp [FlagOk]
      · exact ht e h
  | delOp k ts =>
    cases hidx : get_index t.entries k with
    | inl idx =>
      rw [applyOp, delete_entries_inl hidx] at he
      rcases List.mem_or_eq_of_mem_set he with h | h
      · exact ht e h
      · subst h; simp [FlagOk]
    | inr idx =>
      rw [applyOp, delete_entries_inr hidx] at he
      rcases mem_insertAt he with h | h
      · subst h; simp [FlagOk]
      · exact ht e h

theorem flagOk_foldl : ∀ (ops : List Op) (t : MemTable),
    (∀ e ∈ t.entries, FlagOk e) → ∀ e ∈ (ops.foldl applyOp t).entries, FlagOk e
  | [], _, ht => ht
  | op :: ops, t, ht => flagOk_foldl ops (applyOp t op) (flagOk_applyOp ht)



/-- Key b-Apple from the test scenarios of src/mem_table.rs, as bytes. -/
def appleKey : Bytes := [65, 112, 112, 108, 101]

/-- Value b-Apple-Smoothie (14 bytes). -/
def appleValue : Bytes := [65, 112, 112, 108, 101, 32, 83, 109, 111, 111, 116, 104, 105, 101]

/-- Key b-Lime (4 bytes). -/
def limeKey : Bytes := [76, 105, 109, 101]

/-- Value b-Lime-Smoothie (13 bytes). -/
def limeValue : Bytes := [76, 105, 109, 101, 32, 83, 109, 111, 111, 116, 104, 105, 101]

/-- Key b-Orange (6 bytes). -/
def orangeKey : Bytes := [79, 114, 97, 110, 103, 101]

/-- Value b-Orange-Smoothie (15 bytes). -/
def orangeValue : Bytes := [79, 114, 97, 110, 103, 101, 32, 83, 109, 111, 111, 116, 104, 105, 101]

/-- Value b-A-sour-fruit (12 bytes). -/
def sourValue : Bytes := [65, 32, 115, 111, 117, 114, 32, 102, 114, 117, 105, 116]

/-- Claim C1, evaluated at a failing input.  The claim states that calling
set on a key held as a tombstone increases size by the length of the new
value.  The code instead skips the whole size update when the previous
record holds no value (the if-let in MemTable::set falls through), so
after delete(Apple, 0), which leaves size 22 and a tombstone at Apple,
set(Apple, [1,2,3], 1) leaves size at 22 instead of raising it to 25. -/
theorem claim_C1_at_failing_input :
    (MemTable.new.delete appleKey 0).get appleKey = some ⟨appleKey, none, 0, true⟩ ∧
    (MemTable.new.delete appleKey 0).size = 22 ∧
    ((MemTable.new.delete appleKey 0).set appleKey [1, 2, 3] 1).size = 22 := by
  decide

/-- Claim C2: starting from the empty buffer, after any sequence of set
and delete calls the entries are strictly sorted by byte-lexicographic
key comparison, and hence hold at most one record per distinct key. -/
theorem claim_C2_sorted_nodup (ops : List Op) :
    List.Pairwise keyLt (applyOps ops).entries ∧
    List.Pairwise (fun a b => a.key ≠ b.key) (applyOps ops).entries := by
  have hs : SortedEntries (applyOps ops).entries :=
    sorted_applyOps_from ops MemTable.new List.Pairwise.nil
  refine ⟨hs, hs.imp ?_⟩
  intro a b hab heq
  unfold keyLt at hab
  rw [heq, compareBytes_self] at hab
  simp at hab

/-- Claim C3: the concrete size-accounting scenario.  Three inserts give
size 108, overwriting Lime with a one-byte-shorter value gives 107, and a
delete on the empty buffer gives 22. -/
theorem claim_C3_sizes :
    (((MemTable.new.set appleKey appleValue 0).set limeKey limeValue 10).set
        orangeKey orangeValue 20).size = 108 ∧
    ((((MemTable.new.set appleKey appleValue 0).set limeKey limeValue 10).set
        orangeKey orangeValue 20).set limeKey sourValue 30).size = 107 ∧
    (MemTable.new.delete appleKey 10).size = 22 := by
  decide

/-- Claim C4: on any reachable buffer, after set(k, v, ts) the lookup of k
returns the new value and timestamp; after two sets of the same key the
second one wins whatever the two timestamps are; and len grows by exactly
one when the key was absent and is unchanged when it was present. -/
theorem claim_C4_set_get (t : MemTable) (k v v1 v2 : Bytes) (ts t1 t2 : Nat)
    (h : Reachable t) :
    (t.set k v ts).get k = some ⟨k, some v, ts, false⟩ ∧
    ((t.set k v1 t1).set k v2 t2).get k = some ⟨k, some v2, t2, false⟩ ∧
    ((t.get k).isSome = true → (t.set k v ts).len = t.len) ∧
    (t.get k = none → (t.set k v ts).len = t.len + 1) := by
  have hs := reachable_sorted h
  refine ⟨get_set_self hs, get_set_self (sorted_set_op hs), ?_, ?_⟩
  · intro hg
    rw [len_set, if_pos hg]
  · intro hg
    rw [len_set, if_neg (by rw [hg]; simp)]

/-- Witness for claim C4 at a concrete input. -/
theorem claim_C4_witness :
    (MemTable.new.set [1] [2] 3).get [1] = some ⟨[1], some [2], 3, false⟩ ∧
    ((MemTable.new.set [1] [4] 4).set [1] [5] 8).get [1] = some ⟨[1], some [5], 8, false⟩ ∧
    ((MemTable.new.get [1]).isSome = true → (MemTable.new.set [1] [2] 3).len = MemTable.new.len) ∧
    (MemTable.new.get [1] = none → (MemTable.new.set [1] [2] 3).len = MemTable.new.len + 1) :=
  claim_C4_set_get MemTable.new [1] [2] [4] [5] 3 4 8 ⟨[], rfl⟩

/-- Claim C5: on any reachable buffer, delete(k, ts) always succeeds and a
subsequent lookup of k returns a record with no value, the tombstone flag
set and timestamp ts, whether or not k was present before. -/
theorem claim_C5_tombstone (t : MemTable) (k : Bytes) (ts : Nat) (h : Reachable t) :
    (t.delete k ts).get k = some ⟨k, none, ts, true⟩ :=
  get_delete_self (reachable_sorted h)

/-- Witness for claim C5 at a concrete input. -/
theorem claim_C5_witness :
    (MemTable.new.delete [3] 7).get [3] = some ⟨[3], none, 7, true⟩ :=
  claim_C5_tombstone MemTable.new [3] 7 ⟨[], rfl⟩

/-- Claim C6, evaluated at a failing input.  The claim states that in
reachable states the size subtractions of set and delete never subtract
more than the current size.  Counterexample: delete a one-byte key (size
becomes 18), set it to a 30-byte value (size stays 18 because the code
skips the update over a tombstone, see claim C1), then delete again: the
code subtracts the 30-byte previous value length from size 18.  The first
conjunct shows the state is reachable by operations. -/
theorem claim_C6_at_failing_input :
    applyOps [Op.delOp [65] 0, Op.setOp [65] (List.replicate 30 7) 1] =
      (MemTable.new.delete [65] 0).set [65] (List.replicate 30 7) 1 ∧
    ((MemTable.new.delete [65] 0).set [65] (List.replicate 30 7) 1).size = 18 ∧
    ((MemTable.new.delete [65] 0).set [65] (List.replicate 30 7) 1).deleteUnderflows [65]
      = true := by
  refine ⟨rfl, by decide, by decide⟩

/-- Claim C7: on any reachable buffer where k is held as a tombstone,
deleting k again changes neither len nor size and only refreshes the
timestamp of the tombstone record. -/
theorem claim_C7_redelete (t : MemTable) (k : Bytes) (ts : Nat) (e : MemTableEntry)
    (h : Reachable t) (he : t.get k = some e) (hv : e.value = none) :
    (t.delete k ts).len = t.len ∧ (t.delete k ts).size = t.size ∧
    (t.delete k ts).get k = some ⟨k, none, ts, true⟩ := by
  have hs := reachable_sorted h
  refine ⟨?_, delete_size_tombstone he hv, get_delete_self hs⟩
  rw [len_delete, if_pos (by rw [he]; rfl)]

/-- Witness for claim C7 at a concrete input. -/
theorem claim_C7_witness :
    ((MemTable.new.delete [3] 0).delete [3] 9).len = (MemTable.new.delete [3] 0).len ∧
    ((MemTable.new.delete [3] 0).delete [3] 9).size = (MemTable.new.delete [3] 0).size ∧
    ((MemTable.new.delete [3] 0).delete [3] 9).get [3] = some ⟨[3], none, 9, true⟩ :=
  claim_C7_redelete (MemTable.new.delete [3] 0) [3] 9 ⟨[3], none, 0, true⟩
    ⟨[Op.delOp [3] 0], rfl⟩ (by decide) rfl

/-- Claim C8: a lookup of a key that no operation of the building sequence
ever mentioned returns none, the explicit not-found signal (distinct by
type from the some-tombstone answer of a deleted key). -/
theorem claim_C8_absent (ops : List Op) (k : Bytes)
    (h : ∀ op ∈ ops, op.key ≠ k) :
    (applyOps ops).get k = none := by
  cases hg : (applyOps ops).get k with
  | none => rfl
  | some e =>
    obtain ⟨hk, hmem⟩ := get_eq_some hg
    rcases mem_foldl_key ops MemTable.new e hmem with ⟨op, hop, hek⟩ | habs
    · exact absurd (hek.symm.trans hk) (h op hop)
    · simp [MemTable.new] at habs

/-- Witness for claim C8 at a concrete input. -/
theorem claim_C8_witness :
    (applyOps [Op.setOp [1] [9] 0]).get [2] = none :=
  claim_C8_absent [Op.setOp [1] [9] 0] [2] (by decide)

/-- Claim C9: in every reachable buffer, every record has its tombstone
flag set exactly when its value is absent. -/
theorem claim_C9_flag (ops : List Op) (e : MemTableEntry)
    (he : e ∈ (applyOps ops).entries) :
    e.is_deleted = true ↔ e.value = none :=
  flagOk_foldl ops MemTable.new (by intro e h; simp [MemTable.new] at h) e he

/-- Witness for claim C9 at a concrete input. -/
theorem claim_C9_witness :
    ((⟨[1], none, 5, true⟩ : MemTableEntry).is_deleted = true ↔
      (⟨[1], none, 5, true⟩ : MemTableEntry).value = none) :=
  claim_C9_flag [Op.delOp [1] 5] ⟨[1], none, 5, true⟩ (by decide)

/-- Claim C10: whenever get returns a record, the key of that record is
byte-for-byte the key that was looked up; the binary search never answers
with a record of a different key.  This holds for every buffer value, not
only reachable ones. -/
theorem claim_C10_key_match (t : MemTable) (k : Bytes) (e : MemTableEntry)
    (h : t.get k = some e) : e.key = k :=
  (get_eq_some h).1

/-- Witness for claim C10 at a concrete input. -/
theorem claim_C10_witness :
    (⟨[1], some [2], 0, false⟩ : MemTableEntry).key = [1] :=
  claim_C10_key_match (MemTable.new.set [1] [2] 0) [1] ⟨[1], some [2], 0, false⟩ (by decide)

end LsmDb
